import Mathlib

/-!
Verification of the `interval_map<K, V>` data structure from
`src/src/exercise.cpp`.

The C++ class stores a piecewise-constant total function as a
`std::map<K, V> m_map` of breakpoints.  We embed it shallowly: the
`std::map` becomes a list of `(key, value)` pairs whose std::map class
invariant (strictly ascending, unique keys) is the predicate
`SortedKeys`.  The key type `K` is modelled as `Int`; the test suite
instantiates `K` with a wrapper around `int`, whose
`std::numeric_limits::lowest()` is `Klowest` below.  The value type `V`
stays a type parameter, exactly as in the template; `assign` and
`operator[]` never compare values, so no equality on `V` is needed by
the definitions.
-/

namespace interval_map

/-- Lowest representable key: `std::numeric_limits<K>::lowest()` for the
test instantiation, where `K` wraps a 32-bit `int`. -/
def Klowest : Int := -2147483648

/-- The breakpoint container `std::map<K, V> m_map`, as an association
list ordered by key. -/
abbrev BMap (V : Type) := List (Int × V)

/-- The `std::map` class invariant: keys strictly ascending (hence
unique).  Every reachable `m_map` state satisfies it. -/
def SortedKeys {V : Type} (m : BMap V) : Prop :=
  m.Pairwise (fun p q => p.1 < q.1)

instance {V : Type} (m : BMap V) : Decidable (SortedKeys m) :=
  List.instDecidablePairwise m

/-- The constructor `interval_map(V const& val)`: inserts the single
pair `(numeric_limits<K>::lowest(), val)` into the empty map. -/
def init {V : Type} (val : V) : BMap V := [(Klowest, val)]

/-- The lookup `operator[]`: `(--m_map.upper_bound(key))->second`, i.e.
the value of the greatest breakpoint whose key is `≤ key`.  When no such
breakpoint exists the C++ decrements `begin()`, which is undefined
behaviour; the model returns `none` there. -/
def lookup {V : Type} : BMap V → Int → Option V
  | [], _ => none
  | (a, w) :: t, k => if k < a then none else some ((lookup t k).getD w)

/-- Insert-or-overwrite at one key, keeping `std::map` unique-key
semantics: this is what each of the two hinted branches of `assign`
does (`m_map.insert(it, {key, v})` when the key is absent,
`it->second = v` when `lower_bound` found the key). -/
def setKey {V : Type} : BMap V → Int → V → BMap V
  | [], k, v => [(k, v)]
  | (a, w) :: t, k, v =>
    if k < a then (k, v) :: (a, w) :: t
    else if a < k then (a, w) :: setKey t k v
    else (k, v) :: t

/-- The final `m_map.erase(++beginIt, endIt)`: after the two boundary
writes, `beginIt` sits on the key-`b` entry and `endIt` on the key-`e`
entry, so the erased range is exactly the breakpoints with keys strictly
between `b` and `e`. -/
def eraseBetween {V : Type} (m : BMap V) (b e : Int) : BMap V :=
  m.filter fun p => decide (¬ (b < p.1 ∧ p.1 < e))

/-- `interval_map::assign(keyBegin, keyEnd, val)`, line by line:
return unchanged when `!(keyBegin < keyEnd)`; capture
`endVal = (*this)[keyEnd]` before mutation (the `none` branch is the
undefined behaviour of a floorless map, unreachable from `init`);
write `val` at `keyBegin` and `endVal` at `keyEnd` (insert or
overwrite, per the `lower_bound` comparisons); erase the breakpoints
strictly between the two boundaries. -/
def assign {V : Type} (m : BMap V) (keyBegin keyEnd : Int) (val : V) : BMap V :=
  if ¬ (keyBegin < keyEnd) then m
  else
    match lookup m keyEnd with
    | none => m
    | some endVal =>
      eraseBetween (setKey (setKey m keyBegin val) keyEnd endVal) keyBegin keyEnd

/-- A whole sequence of `assign` calls, applied left to right. -/
def applyAll {V : Type} : BMap V → List (Int × Int × V) → BMap V
  | m, [] => m
  | m, c :: cs => applyAll (assign m c.1 c.2.1 c.2.2) cs

/-- The adjacent-values scan of the test helper `checkCanonicity`:
walk the stored sequence and require every consecutive pair to carry
different values. -/
def canonicalChk {V : Type} [DecidableEq V] : BMap V → Bool
  | p :: q :: t => decide (p.2 ≠ q.2) && canonicalChk (q :: t)
  | _ => true

/-- The canonicity property checked by the test helper
`checkCanonicity`: no two consecutive stored breakpoints carry equal
values. -/
def Canonical {V : Type} [DecidableEq V] (m : BMap V) : Prop :=
  canonicalChk m = true

instance {V : Type} [DecidableEq V] (m : BMap V) : Decidable (Canonical m) :=
  inferInstanceAs (Decidable (canonicalChk m = true))

/-! ### Filter views of the breakpoint list -/

/-- Breakpoints with keys strictly below `b`. -/
def below {V : Type} (m : BMap V) (b : Int) : BMap V :=
  m.filter fun p => decide (p.1 < b)

/-- Breakpoints with keys strictly above `e`. -/
def above {V : Type} (m : BMap V) (e : Int) : BMap V :=
  m.filter fun p => decide (e < p.1)

variable {V : Type}

theorem mem_below {m : BMap V} {b : Int} {p : Int × V} :
    p ∈ below m b ↔ p ∈ m ∧ p.1 < b := by
  simp [below, List.mem_filter]

theorem mem_above {m : BMap V} {e : Int} {p : Int × V} :
    p ∈ above m e ↔ p ∈ m ∧ e < p.1 := by
  simp [above, List.mem_filter]

theorem sortedKeys_cons {p : Int × V} {t : BMap V} :
    SortedKeys (p :: t) ↔ (∀ q ∈ t, p.1 < q.1) ∧ SortedKeys t := by
  simp [SortedKeys, List.pairwise_cons]

/-- `setKey` on a sorted list splits into the strictly-below part, the new
pair, and the strictly-above part. -/
theorem below_eq_nil {m : BMap V} {k : Int} (h : ∀ p ∈ m, ¬ p.1 < k) :
    below m k = [] := by
  simp only [below, List.filter_eq_nil_iff, decide_eq_true_eq]
  exact h

theorem below_eq_self {m : BMap V} {k : Int} (h : ∀ p ∈ m, p.1 < k) :
    below m k = m := by
  simp only [below, List.filter_eq_self, decide_eq_true_eq]
  exact h

theorem above_eq_nil {m : BMap V} {k : Int} (h : ∀ p ∈ m, ¬ k < p.1) :
    above m k = [] := by
  simp only [above, List.filter_eq_nil_iff, decide_eq_true_eq]
  exact h

theorem above_eq_self {m : BMap V} {k : Int} (h : ∀ p ∈ m, k < p.1) :
    above m k = m := by
  simp only [above, List.filter_eq_self, decide_eq_true_eq]
  exact h

/-- `setKey` on a sorted list splits into the strictly-below part, the new
pair, and the strictly-above part. -/
theorem setKey_eq_parts {m : BMap V} (hs : SortedKeys m) (k : Int) (v : V) :
    setKey m k v = below m k ++ (k, v) :: above m k := by
  induction m with
  | nil => simp [setKey, below, above]
  | cons p t ih =>
    obtain ⟨a, x⟩ := p
    rw [sortedKeys_cons] at hs
    obtain ⟨hat, hts⟩ := hs
    by_cases hka : k < a
    · have h1 : below ((a, x) :: t) k = [] := by
        refine below_eq_nil ?_
        rintro q hq
        rcases List.mem_cons.mp hq with hq | hq
        · subst hq; simp; omega
        · have := hat q hq; simp at this ⊢; omega
      have h2 : above ((a, x) :: t) k = (a, x) :: t := by
        refine above_eq_self ?_
        rintro q hq
        rcases List.mem_cons.mp hq with hq | hq
        · subst hq; simp; omega
        · have := hat q hq; simp at this ⊢; omega
      simp [setKey, hka, h1, h2]
    · by_cases hak : a < k
      · have h1 : below ((a, x) :: t) k = (a, x) :: below t k := by
          simp [below, List.filter_cons, hak]
        have h2 : above ((a, x) :: t) k = above t k := by
          have : ¬ k < a := hka
          simp [above, List.filter_cons, this]
        simp only [setKey, if_neg hka, if_pos hak, h1, h2, ih hts,
          List.cons_append]
      · have hak' : a = k := by omega
        subst hak'
        have h1 : below ((a, x) :: t) a = [] := by
          refine below_eq_nil ?_
          rintro q hq
          rcases List.mem_cons.mp hq with hq | hq
          · subst hq; simp
          · have := hat q hq; simp at this ⊢; omega
        have h2 : above ((a, x) :: t) a = t := by
          have hh : ¬ a < a := by omega
          have h3 : above t a = t := by
            refine above_eq_self ?_
            rintro q hq
            exact hat q hq
          simp only [above, List.filter_cons, decide_eq_true_eq] at h3 ⊢
          rw [if_neg (by simp)]
          exact h3
        simp [setKey, hka, hak, h1, h2]

theorem sortedKeys_below {m : BMap V} (hs : SortedKeys m) (k : Int) :
    SortedKeys (below m k) :=
  List.Pairwise.filter _ hs

theorem sortedKeys_above {m : BMap V} (hs : SortedKeys m) (k : Int) :
    SortedKeys (above m k) :=
  List.Pairwise.filter _ hs

/-- The parts decomposition is itself sorted. -/
theorem sortedKeys_parts {m : BMap V} (hs : SortedKeys m) (k : Int) (v : V) :
    SortedKeys (below m k ++ (k, v) :: above m k) := by
  rw [SortedKeys, List.pairwise_append]
  refine ⟨sortedKeys_below hs k, ?_, ?_⟩
  · rw [← SortedKeys, sortedKeys_cons]
    refine ⟨fun q hq => (mem_above.mp hq).2, sortedKeys_above hs k⟩
  · rintro p hp q hq
    have hpb := (mem_below.mp hp).2
    rcases List.mem_cons.mp hq with hq | hq
    · subst hq; exact hpb
    · have := (mem_above.mp hq).2
      omega

theorem sortedKeys_setKey {m : BMap V} (hs : SortedKeys m) (k : Int) (v : V) :
    SortedKeys (setKey m k v) := by
  rw [setKey_eq_parts hs]
  exact sortedKeys_parts hs k v

theorem below_append {X Y : BMap V} {k : Int} :
    below (X ++ Y) k = below X k ++ below Y k := by
  simp [below]

theorem above_append {X Y : BMap V} {k : Int} :
    above (X ++ Y) k = above X k ++ above Y k := by
  simp [above]

theorem below_cons {p : Int × V} {t : BMap V} {k : Int} :
    below (p :: t) k = if p.1 < k then p :: below t k else below t k := by
  by_cases h : p.1 < k <;> simp [below, List.filter_cons, h]

theorem above_cons {p : Int × V} {t : BMap V} {k : Int} :
    above (p :: t) k = if k < p.1 then p :: above t k else above t k := by
  by_cases h : k < p.1 <;> simp [above, List.filter_cons, h]

theorem above_above {m : BMap V} {b e : Int} (hbe : b < e) :
    above (above m b) e = above m e := by
  simp only [above, List.filter_filter]
  refine List.filter_congr fun p hp => ?_
  by_cases h : e < p.1
  · have hb : b < p.1 := by omega
    simp [h, hb]
  · simp [h]

theorem eraseBetween_append {X Y : BMap V} {b e : Int} :
    eraseBetween (X ++ Y) b e = eraseBetween X b e ++ eraseBetween Y b e := by
  simp [eraseBetween]

theorem eraseBetween_cons {p : Int × V} {t : BMap V} {b e : Int} :
    eraseBetween (p :: t) b e =
      if b < p.1 ∧ p.1 < e then eraseBetween t b e
      else p :: eraseBetween t b e := by
  by_cases h : b < p.1 ∧ p.1 < e <;> simp [eraseBetween, List.filter_cons, h]

theorem eraseBetween_eq_self {m : BMap V} {b e : Int}
    (h : ∀ p ∈ m, ¬ (b < p.1 ∧ p.1 < e)) : eraseBetween m b e = m := by
  simp only [eraseBetween, List.filter_eq_self, decide_eq_true_eq]
  exact h

theorem eraseBetween_eq_nil {m : BMap V} {b e : Int}
    (h : ∀ p ∈ m, b < p.1 ∧ p.1 < e) : eraseBetween m b e = [] := by
  simp only [eraseBetween, List.filter_eq_nil_iff, decide_eq_true_eq, not_not]
  exact h

/-- Unfolding of `assign` when the guard passes and the pre-call value at
`keyEnd` is defined. -/
theorem assign_of_some {m : BMap V} {b e : Int} {v w : V}
    (hbe : b < e) (hw : lookup m e = some w) :
    assign m b e v = eraseBetween (setKey (setKey m b v) e w) b e := by
  rw [assign, if_neg (not_not_intro hbe), hw]

/-- Normal form of `assign` in the mutating case: on a sorted map with
`keyBegin < keyEnd` and a defined pre-call value `w` at `keyEnd`, the
result keeps everything below `keyBegin`, writes `(keyBegin, val)` and
`(keyEnd, w)`, and keeps everything above `keyEnd`.  This is the net
effect of the two boundary writes plus the range erase. -/
theorem assign_eq_parts {m : BMap V} {b e : Int} {v w : V}
    (hs : SortedKeys m) (hbe : b < e) (hw : lookup m e = some w) :
    assign m b e v = below m b ++ (b, v) :: (e, w) :: above m e := by
  rw [assign_of_some hbe hw]
  rw [setKey_eq_parts hs b v]
  have hs1 : SortedKeys (below m b ++ (b, v) :: above m b) :=
    sortedKeys_parts hs b v
  rw [setKey_eq_parts hs1 e w]
  have h1 : below (below m b ++ (b, v) :: above m b) e
      = below m b ++ (b, v) :: below (above m b) e := by
    rw [below_append, below_cons, if_pos hbe,
      below_eq_self fun p hp => lt_trans (mem_below.mp hp).2 hbe]
  have h2 : above (below m b ++ (b, v) :: above m b) e = above m e := by
    rw [above_append, above_cons, if_neg (by omega : ¬ e < b),
      above_eq_nil fun p hp => by have := (mem_below.mp hp).2; omega,
      above_above hbe, List.nil_append]
  rw [h1, h2]
  rw [eraseBetween_append, eraseBetween_append, eraseBetween_cons,
    eraseBetween_cons]
  rw [if_neg (by omega : ¬ (b < b ∧ b < e)), if_neg (by omega : ¬ (b < e ∧ e < e))]
  rw [eraseBetween_eq_self fun p hp => by have := (mem_below.mp hp).2; omega,
    eraseBetween_eq_nil fun p hp => by
      have h3 := (mem_below.mp hp).2
      have h4 := (mem_above.mp (mem_below.mp hp).1).2
      exact ⟨h4, h3⟩,
    eraseBetween_eq_self fun p hp => by have := (mem_above.mp hp).2; omega]
  simp

/-! ### Lookup lemmas -/

theorem lookup_nil {k : Int} : lookup ([] : BMap V) k = none := rfl

theorem lookup_cons {a : Int} {x : V} {t : BMap V} {k : Int} :
    lookup ((a, x) :: t) k =
      if k < a then none else some ((lookup t k).getD x) := rfl

/-- When the suffix contributes nothing at `k`, lookup over an append is
lookup over the prefix. -/
theorem lookup_append_of_none {A T : BMap V} {k : Int}
    (h : lookup T k = none) : lookup (A ++ T) k = lookup A k := by
  induction A with
  | nil => simpa using h
  | cons p A ih =>
    obtain ⟨a, x⟩ := p
    rw [List.cons_append, lookup_cons, lookup_cons, ih]

/-- When every prefix key is `≤ k` and the suffix answers `some u`, an
append answers `some u`. -/
theorem lookup_append_of_some {A T : BMap V} {k : Int} {u : V}
    (hA : ∀ p ∈ A, ¬ k < p.1) (h : lookup T k = some u) :
    lookup (A ++ T) k = some u := by
  induction A with
  | nil => simpa using h
  | cons p A ih =>
    obtain ⟨a, x⟩ := p
    rw [List.cons_append, lookup_cons,
      if_neg (hA (a, x) (List.mem_cons_self _ _))]
    rw [ih fun q hq => hA q (List.mem_cons_of_mem _ hq), Option.getD_some]

/-- Below the cut, lookup ignores the removed upper part. -/
theorem lookup_below {m : BMap V} {b k : Int} (hs : SortedKeys m)
    (hk : k < b) : lookup (below m b) k = lookup m k := by
  induction m with
  | nil => simp [below]
  | cons p t ih =>
    obtain ⟨a, x⟩ := p
    rw [sortedKeys_cons] at hs
    obtain ⟨hat, hts⟩ := hs
    by_cases hab : a < b
    · rw [below_cons, if_pos hab, lookup_cons, lookup_cons, ih hts]
    · have hka : k < a := by omega
      rw [below_cons, if_neg hab, lookup_cons, if_pos hka,
        below_eq_nil fun q hq => by have := hat q hq; omega, lookup_nil]

/-- Above the cut `e ≤ k`: when the pre-state answers `some w` at `e`,
its answer at `k` is the answer of the strictly-above part, defaulting
to `w`. -/
theorem lookup_ge_split {m : BMap V} {e k : Int} {w : V}
    (hs : SortedKeys m) (hek : e ≤ k) (hw : lookup m e = some w) :
    lookup m k = some ((lookup (above m e) k).getD w) := by
  induction m with
  | nil => simp [lookup] at hw
  | cons p t ih =>
    obtain ⟨a, x⟩ := p
    rw [sortedKeys_cons] at hs
    obtain ⟨hat, hts⟩ := hs
    rw [lookup_cons] at hw
    by_cases hea : e < a
    · rw [if_pos hea] at hw
      exact absurd hw (by simp)
    · rw [if_neg hea, Option.some_inj] at hw
      have hka : ¬ k < a := by omega
      rw [lookup_cons, if_neg hka, above_cons, if_neg hea]
      match ht : lookup t e with
      | some w' =>
        rw [ht, Option.getD_some] at hw
        subst hw
        rw [ih hts ht, Option.getD_some]
      | none =>
        rw [ht, Option.getD_none] at hw
        subst hw
        match t with
        | [] => simp [above, lookup]
        | (a2, x2) :: t2 =>
          rw [lookup_cons] at ht
          by_cases hea2 : e < a2
          · have h4 : above ((a2, x2) :: t2) e = (a2, x2) :: t2 := by
              refine above_eq_self ?_
              rintro q hq
              rcases List.mem_cons.mp hq with hq | hq
              · subst hq; exact hea2
              · have h5 := (sortedKeys_cons.mp hts).1 q hq
                omega
            rw [h4]
          · rw [if_neg hea2] at ht
            exact absurd ht (by simp)

/-- `assign` preserves the `std::map` class invariant. -/
theorem sortedKeys_assign {m : BMap V} (hs : SortedKeys m)
    (b e : Int) (v : V) : SortedKeys (assign m b e v) := by
  by_cases hbe : b < e
  · match hw : lookup m e with
    | none => rw [assign, if_neg (not_not_intro hbe), hw]; exact hs
    | some w =>
      rw [assign_eq_parts hs hbe hw]
      rw [SortedKeys, List.pairwise_append]
      refine ⟨sortedKeys_below hs b, ?_, ?_⟩
      · rw [← SortedKeys, sortedKeys_cons]
        constructor
        · rintro q hq
          rcases List.mem_cons.mp hq with hq | hq
          · subst hq; exact hbe
          · have := (mem_above.mp hq).2; simp; omega
        · rw [sortedKeys_cons]
          exact ⟨fun q hq => (mem_above.mp hq).2, sortedKeys_above hs e⟩
      · rintro p hp q hq
        have hpb := (mem_below.mp hp).2
        rcases List.mem_cons.mp hq with hq | hq
        · subst hq; exact hpb
        rcases List.mem_cons.mp hq with hq | hq
        · subst hq; simp; omega
        · have := (mem_above.mp hq).2; omega
  · rw [assign, if_pos hbe]
    exact hs

theorem lookup_eq_none_of_keys_gt {m : BMap V} {k : Int}
    (h : ∀ p ∈ m, k < p.1) : lookup m k = none := by
  match m with
  | [] => rfl
  | (a, x) :: t =>
    rw [lookup_cons, if_pos (h (a, x) (List.mem_cons_self _ _))]

/-- Inside the assigned range, lookup returns the assigned value. -/
theorem lookup_assign_in {m : BMap V} {b e k : Int} {v w : V}
    (hs : SortedKeys m) (hbe : b < e) (hw : lookup m e = some w)
    (hbk : b ≤ k) (hke : k < e) : lookup (assign m b e v) k = some v := by
  rw [assign_eq_parts hs hbe hw]
  refine lookup_append_of_some (fun p hp => by have := (mem_below.mp hp).2; omega) ?_
  rw [lookup_cons, if_neg (by omega : ¬ k < b), lookup_cons, if_pos hke]
  rfl

/-- Strictly below the assigned range, lookup is unchanged. -/
theorem lookup_assign_low {m : BMap V} {b e k : Int} {v : V}
    (hs : SortedKeys m) (hk : k < b) :
    lookup (assign m b e v) k = lookup m k := by
  by_cases hbe : b < e
  · match hw : lookup m e with
    | none => rw [assign, if_neg (not_not_intro hbe), hw]
    | some w =>
      rw [assign_eq_parts hs hbe hw]
      rw [lookup_append_of_none (by rw [lookup_cons, if_pos hk])]
      exact lookup_below hs hk
  · rw [assign, if_pos hbe]

/-- At and above `keyEnd`, lookup is unchanged. -/
theorem lookup_assign_high {m : BMap V} {b e k : Int} {v : V}
    (hs : SortedKeys m) (hk : e ≤ k) :
    lookup (assign m b e v) k = lookup m k := by
  by_cases hbe : b < e
  · match hw : lookup m e with
    | none => rw [assign, if_neg (not_not_intro hbe), hw]
    | some w =>
      rw [assign_eq_parts hs hbe hw]
      have h1 : lookup ((b, v) :: (e, w) :: above m e) k
          = some ((lookup (above m e) k).getD w) := by
        rw [lookup_cons, if_neg (by omega : ¬ k < b), lookup_cons,
          if_neg (by omega : ¬ k < e), Option.getD_some]
      rw [lookup_append_of_some
        (fun p hp => by have := (mem_below.mp hp).2; omega) h1]
      exact (lookup_ge_split hs hk hw).symm
  · rw [assign, if_pos hbe]

/-- In the mutating case the result keeps `(keyEnd, endVal)` with keys
above it strictly larger, so a second lookup at `keyEnd` still answers
`endVal`. -/
theorem lookup_assign_at_end {m : BMap V} {b e : Int} {v w : V}
    (hs : SortedKeys m) (hbe : b < e) (hw : lookup m e = some w) :
    lookup (assign m b e v) e = some w := by
  rw [assign_eq_parts hs hbe hw]
  refine lookup_append_of_some (fun p hp => by have := (mem_below.mp hp).2; omega) ?_
  rw [lookup_cons, if_neg (by omega : ¬ e < b), lookup_cons,
    if_neg (by omega : ¬ e < e), Option.getD_some,
    lookup_eq_none_of_keys_gt fun p hp => (mem_above.mp hp).2, Option.getD_none]

/-- The floor breakpoint at `Klowest` survives `assign` whenever the
call's `keyBegin` is a representable key. -/
theorem assign_floor {m : BMap V} {w0 : V} {t : BMap V} {b e : Int} {v : V}
    (hs : SortedKeys m) (hm : m = (Klowest, w0) :: t) (hb : Klowest ≤ b) :
    ∃ w1 t1, assign m b e v = (Klowest, w1) :: t1 := by
  by_cases hbe : b < e
  · have hw : lookup m e = some ((lookup t e).getD w0) := by
      rw [hm, lookup_cons, if_neg (by omega : ¬ e < Klowest)]
    rw [assign_eq_parts hs hbe hw]
    by_cases hkb : Klowest < b
    · have hbel : below m b = (Klowest, w0) :: below t b := by
        rw [hm, below_cons, if_pos hkb]
      rw [hbel, List.cons_append]
      exact ⟨w0, _, rfl⟩
    · have hbK : b = Klowest := by omega
      have hbel : below m b = [] := by
        refine below_eq_nil ?_
        rintro q hq
        rw [hm] at hq
        rcases List.mem_cons.mp hq with hq | hq
        · subst hq; omega
        · subst hm
          have := (sortedKeys_cons.mp hs).1 q hq
          simp at this
          omega
      rw [hbel, List.nil_append, hbK]
      exact ⟨v, _, rfl⟩
  · rw [assign, if_pos hbe, hm]
    exact ⟨w0, t, rfl⟩

/-- Invariant preservation along a whole call sequence. -/
theorem applyAll_inv {V : Type} :
    ∀ (calls : List (Int × Int × V)) (m : BMap V),
      SortedKeys m → (∃ w t, m = (Klowest, w) :: t) →
      (∀ c ∈ calls, Klowest ≤ c.1) →
      SortedKeys (applyAll m calls) ∧
        ∃ w t, applyAll m calls = (Klowest, w) :: t := by
  intro calls
  induction calls with
  | nil => intro m hs hm _; exact ⟨hs, hm⟩
  | cons c cs ih =>
    intro m hs hm hc
    obtain ⟨w0, t0, hm0⟩ := hm
    rw [applyAll]
    exact ih (assign m c.1 c.2.1 c.2.2)
      (sortedKeys_assign hs c.1 c.2.1 c.2.2)
      (assign_floor hs hm0 (hc c (List.mem_cons_self _ _)))
      fun d hd => hc d (List.mem_cons_of_mem _ hd)

/-! ### Claims -/

/-- Claim C1 (refuted by the code, asserted by the repo's own tests):
the canonicity invariant — after any sequence of `assign` calls no two
consecutive stored breakpoints have equal values — fails.  `assign`
never compares values, so assigning the surrounding value materializes
equal-valued neighbours: from a fresh map with constant value the single
call `assign(0, 1, a)` stores three consecutive `a` breakpoints, which
the test helper `checkCanonicity` rejects. -/
theorem claimC1_eval :
    applyAll (init 'a') [(0, 1, 'a')] = [(Klowest, 'a'), (0, 'a'), (1, 'a')] ∧
    ¬ Canonical (applyAll (init 'a') [(0, 1, 'a')]) := by decide

/-- Claim C2 (confirmed): after `assign(b, e, v)` on a valid map state
(sorted, with the floor breakpoint at `Klowest`) and a representable
`b`, lookup returns `v` on every key in `[b, e)` and its pre-call answer
on every key outside `[b, e)`. -/
theorem claimC2_assign_lookup (m : BMap V) (b e : Int) (v : V)
    (hs : SortedKeys m) (hm : ∃ w t, m = (Klowest, w) :: t)
    (hb : Klowest ≤ b) :
    (∀ k, b ≤ k → k < e → lookup (assign m b e v) k = some v) ∧
    (∀ k, ¬ (b ≤ k ∧ k < e) → lookup (assign m b e v) k = lookup m k) := by
  constructor
  · intro k hbk hke
    have hbe : b < e := lt_of_le_of_lt hbk hke
    obtain ⟨w0, t0, hm0⟩ := hm
    have hw : lookup m e = some ((lookup t0 e).getD w0) := by
      rw [hm0, lookup_cons, if_neg (by omega : ¬ e < Klowest)]
    exact lookup_assign_in hs hbe hw hbk hke
  · intro k hk
    by_cases hkb : k < b
    · exact lookup_assign_low hs hkb
    · have hek : e ≤ k := by omega
      exact lookup_assign_high hs hek

theorem claimC2_witness :
    lookup (assign (init 'a') 0 5 'b') 3 = some 'b' ∧
    lookup (assign (init 'a') 0 5 'b') 7 = lookup (init 'a') 7 := by
  have h := claimC2_assign_lookup (init 'a') 0 5 'b' (by decide)
    ⟨'a', [], rfl⟩ (by decide)
  exact ⟨h.1 3 (by decide) (by decide), h.2 7 (by decide)⟩

/-- Claim C3 (refuted by the code, asserted by spec and tests): starting
from a constant map, `assign(10, 100, b)` gives 3 breakpoints, but
re-assigning `assign(10, 100, a)` leaves 3 breakpoints — not the claimed
minimal 1 — because `assign` unconditionally rewrites both boundary
breakpoints and never merges equal-valued neighbours. -/
theorem claimC3_eval :
    (assign (init 'a') 10 100 'b').length = 3 ∧
    (assign (assign (init 'a') 10 100 'b') 10 100 'a').length = 3 := by decide

/-- Claim C4 (refuted by the code, asserted by the spec): even when the
value in effect just before `keyBegin` already equals the assigned
value, the code still stores a breakpoint at `keyBegin`.  Here the value
before key 10 is `a` and `assign(10, 100, a)` still creates a key-10
breakpoint. -/
theorem claimC4_eval :
    lookup (init 'a') 9 = some 'a' ∧
    ∃ p ∈ assign (init 'a') 10 100 'a', p.1 = 10 := by decide

/-- Claim C5 (refuted by the code, asserted by the spec): even when the
captured `endVal` equals the assigned value, the code still stores a
breakpoint at `keyEnd`.  Here `endVal = lookup 5 = a` equals the
assigned value `a`, yet `assign(0, 5, a)` creates a key-5 breakpoint. -/
theorem claimC5_eval :
    lookup (init 'a') 5 = some 'a' ∧
    ∃ p ∈ assign (init 'a') 0 5 'a', p.1 = 5 := by decide

/-- Claim C6 (confirmed): `assign(b, e, v)` is idempotent — the second
identical call leaves the stored breakpoint sequence exactly as the
first left it, on every sorted map state. -/
theorem claimC6_idempotent (m : BMap V) (b e : Int) (v : V)
    (hs : SortedKeys m) :
    assign (assign m b e v) b e v = assign m b e v := by
  by_cases hbe : b < e
  · match hw : lookup m e with
    | none =>
      have h0 : assign m b e v = m := by
        rw [assign, if_neg (not_not_intro hbe), hw]
      rw [h0]
      exact h0
    | some w =>
      have hparts : assign m b e v
          = below m b ++ (b, v) :: (e, w) :: above m e :=
        assign_eq_parts hs hbe hw
      have hs1 : SortedKeys (assign m b e v) := sortedKeys_assign hs b e v
      have hw1 : lookup (assign m b e v) e = some w :=
        lookup_assign_at_end hs hbe hw
      have hparts1 : assign (assign m b e v) b e v
          = below (assign m b e v) b ++
            (b, v) :: (e, w) :: above (assign m b e v) e :=
        assign_eq_parts hs1 hbe hw1
      have hA : below (below m b) b = below m b :=
        below_eq_self fun p hp => (mem_below.mp hp).2
      have hB : below (above m e) b = [] :=
        below_eq_nil fun p hp => by have := (mem_above.mp hp).2; omega
      have hbel : below (assign m b e v) b = below m b := by
        rw [hparts, below_append, below_cons, if_neg (lt_irrefl b),
          below_cons, if_neg (by omega : ¬ e < b), hA, hB, List.append_nil]
      have hA2 : above (below m b) e = [] :=
        above_eq_nil fun p hp => by have := (mem_below.mp hp).2; omega
      have hB2 : above (above m e) e = above m e :=
        above_eq_self fun p hp => (mem_above.mp hp).2
      have habv : above (assign m b e v) e = above m e := by
        rw [hparts, above_append, above_cons, if_neg (by omega : ¬ e < b),
          above_cons, if_neg (lt_irrefl e), hA2, hB2, List.nil_append]
      rw [hparts1, hbel, habv, ← hparts]
  · have h : ∀ x : BMap V, assign x b e v = x := fun x => by
      rw [assign, if_pos hbe]
    rw [h, h]

theorem claimC6_witness :
    assign (assign (init 'a') 0 5 'b') 0 5 'b' = assign (init 'a') 0 5 'b' :=
  claimC6_idempotent (init 'a') 0 5 'b' (by decide)

/-- Claim C7 (confirmed): with `!(b < e)` the call `assign(b, e, v)` is
a silent no-op — the stored breakpoint sequence is returned unchanged,
hence every lookup is unchanged; no error is signalled. -/
theorem claimC7_noop (m : BMap V) (b e : Int) (v : V) (h : ¬ b < e) :
    assign m b e v = m ∧ ∀ k, lookup (assign m b e v) k = lookup m k := by
  have h0 : assign m b e v = m := by rw [assign, if_pos h]
  exact ⟨h0, fun k => by rw [h0]⟩

theorem claimC7_witness :
    assign (init 'a') 5 0 'c' = init 'a' :=
  (claimC7_noop (init 'a') 5 0 'c' (by decide)).1

/-- Claim C8 (confirmed): the constructor produces exactly the single
breakpoint `(Klowest, initial)`, and immediately afterwards every
representable key looks up to `initial`. -/
theorem claimC8_init (v : V) :
    init v = [(Klowest, v)] ∧
    ∀ k, Klowest ≤ k → lookup (init v) k = some v := by
  refine ⟨rfl, fun k hk => ?_⟩
  rw [init, lookup_cons, if_neg (by omega : ¬ k < Klowest), lookup_nil,
    Option.getD_none]

theorem claimC8_witness : lookup (init 'a') 0 = some 'a' :=
  (claimC8_init 'a').2 0 (by decide)

/-- Claim C9 (confirmed): after any sequence of `assign` calls with
representable begin keys, starting from a freshly constructed map, the
stored breakpoint sequence is non-empty and its smallest key is exactly
`Klowest` — the floor breakpoint is never removed. -/
theorem claimC9_floor (v0 : V) (calls : List (Int × Int × V))
    (hcalls : ∀ c ∈ calls, Klowest ≤ c.1) :
    applyAll (init v0) calls ≠ [] ∧
    ((applyAll (init v0) calls).map Prod.fst).head? = some Klowest ∧
    ∀ p ∈ applyAll (init v0) calls, Klowest ≤ p.1 := by
  obtain ⟨hs, w, t, hr⟩ := applyAll_inv calls (init v0)
    (by rw [init, sortedKeys_cons]; exact ⟨by simp, List.Pairwise.nil⟩)
    ⟨v0, [], rfl⟩ hcalls
  refine ⟨by rw [hr]; simp, by rw [hr]; simp, ?_⟩
  rintro p hp
  rw [hr] at hp
  rcases List.mem_cons.mp hp with hp | hp
  · subst hp; simp
  · rw [hr, sortedKeys_cons] at hs
    have := hs.1 p hp
    simp at this
    omega

theorem claimC9_witness :
    applyAll (init 'a') [(0, 5, 'b')] ≠ [] ∧
    ((applyAll (init 'a') [(0, 5, 'b')]).map Prod.fst).head? = some Klowest := by
  have h := claimC9_floor 'a' [(0, 5, 'b')] (by decide)
  exact ⟨h.1, h.2.1⟩

/-- Claim C10 (confirmed): in the mutating case the result always
contains the breakpoint `(keyBegin, val)` and the breakpoint
`(keyEnd, endVal)` with `endVal` the pre-call lookup at `keyEnd`,
whatever the neighbouring values are — this is exactly the
unconditional boundary rewriting of lines 34 to 48. -/
theorem claimC10_boundaries (m : BMap V) (b e : Int) (v w : V)
    (hs : SortedKeys m) (hbe : b < e) (hw : lookup m e = some w) :
    (b, v) ∈ assign m b e v ∧ (e, w) ∈ assign m b e v := by
  rw [assign_eq_parts hs hbe hw]
  exact ⟨List.mem_append_right _ (List.mem_cons_self _ _),
    List.mem_append_right _ (List.mem_cons_of_mem _ (List.mem_cons_self _ _))⟩

theorem claimC10_witness :
    (0, 'b') ∈ assign (init 'a') 0 5 'b' ∧
    (5, 'a') ∈ assign (init 'a') 0 5 'b' :=
  claimC10_boundaries (init 'a') 0 5 'b' 'a' (by decide) (by decide) (by decide)

end interval_map
